import Mathlib

/-!
# Detection decoder of `modules/4_detection/src/detector.cpp`

A shallow embedding of `iou`, `nms` and the decoding loop of `Detector::detect`,
followed by the properties of the decoder that the design document states.

## Conventions of the embedding

* `float` is binary32.  A value is `nan`, `ninf`, `pinf` or `fin q` with `q` the
  rational it denotes; both zeros are `fin 0` (no operation of the decoder tells them
  apart, except a division by zero, and the only divisor of the program is converted
  from an `int`, hence `+0`).  Every arithmetic result is rounded by `F32.round`
  (nearest, ties to even, overflow to infinity).  Comparisons are the IEEE ones: every
  comparison with `nan` is false.  The arguments of the functions range over all of
  `F32`, the representable values among them; the concrete inputs of this file are
  representable.
* `int` is 32 bit; sums, differences and products are reduced by `wrap32`, the
  conversion `(int)f` is `F32.toInt` (truncation toward zero; the value `-2^31` where
  C++ leaves the conversion undefined, as `cvttss2si` does).  No statement below rests
  on the value of an overflowing operation or of a conversion that does not fit.
* `cv::Rect`, `Rect::area`, `Rect::empty` and `operator&` follow the OpenCV header
  `core/types.hpp`.
* `std::set<size_t>` is the ascending duplicate-free list of its elements; the indices
  pushed to `std::vector<unsigned>` are natural numbers.
* The second `for` loop of a round of `nms` erases elements of the set it iterates over.
  Its effect is taken to be the one the design document describes: every element of the
  working set is tested once against the accepted box and removed when the test succeeds.
* The `while` loop of `nms` need not terminate, so it takes a bound on the number of
  rounds and answers `none` when the bound is reached with the working set non-empty.
  `detect` is the part of `Detector::detect` that follows inference, on the floats of the
  output blob; it answers `none` exactly when its call of `nms` does.
-/

namespace Detection

/-! ## binary32 -/

/-- Values of the C++ type `float`. -/
inductive F32 where
  | nan : F32
  | ninf : F32
  | pinf : F32
  | fin (q : ℚ) : F32
  deriving DecidableEq

namespace F32

/-- The power `2^z` as a rational. -/
def pow2 (z : Int) : ℚ :=
  if 0 ≤ z then ((2 ^ z.toNat : Nat) : ℚ) else 1 / ((2 ^ (-z).toNat : Nat) : ℚ)

/-- The number of halvings that bring `n` below `2`, at most `fuel` of them. -/
def halvings : Nat → Nat → Nat
  | 0, _ => 0
  | fuel + 1, n => if 2 ≤ n then halvings fuel (n / 2) + 1 else 0

/-- The exponent `⌊log2 n⌋` of a positive natural number. -/
def log2Nat (n : Nat) : Nat := halvings n n

/-- The exponent `⌊log2 |q|⌋` of a non-zero rational. -/
def ilog2 (q : ℚ) : Int :=
  let e : Int := (log2Nat q.num.natAbs : Int) - (log2Nat q.den : Int)
  if pow2 e ≤ |q| then e else e - 1

/-- Rounding of a rational to the nearest integer, ties to the even one. -/
def roundEven (x : ℚ) : Int :=
  let f := ⌊x⌋
  let d := x - f
  if d < 1 / 2 then f
  else if 1 / 2 < d then f + 1
  else if f % 2 = 0 then f else f + 1

/-- Rounding of a rational to binary32: 24 bit significand, exponents from `-126`
(subnormals below), overflow to the infinities. -/
def round (q : ℚ) : F32 :=
  if q = 0 then fin 0
  else
    let e := max (ilog2 q) (-126)
    let ulp := pow2 (e - 23)
    let r := (roundEven (q / ulp) : ℚ) * ulp
    if pow2 128 ≤ r then pinf
    else if r ≤ -pow2 128 then ninf
    else fin r

/-- The comparison `a < b` of two floats. -/
def lt : F32 → F32 → Bool
  | nan, _ => false
  | _, nan => false
  | ninf, ninf => false
  | ninf, _ => true
  | _, ninf => false
  | pinf, _ => false
  | fin _, pinf => true
  | fin a, fin b => decide (a < b)

/-- The comparison `a > b` of two floats. -/
def gt (a b : F32) : Bool := lt b a

/-- The comparison `a <= b` of two floats. -/
def le : F32 → F32 → Bool
  | nan, _ => false
  | _, nan => false
  | ninf, _ => true
  | _, pinf => true
  | pinf, _ => false
  | fin _, ninf => false
  | fin a, fin b => decide (a ≤ b)

/-- The comparison `a >= b` of two floats. -/
def ge (a b : F32) : Bool := le b a

/-- The conversion `(float)n` of an `int`. -/
def ofInt (n : Int) : F32 := round (n : ℚ)

/-- The product of two floats. -/
def mul : F32 → F32 → F32
  | nan, _ => nan
  | _, nan => nan
  | fin a, fin b => round (a * b)
  | fin a, pinf => if a = 0 then nan else if 0 < a then pinf else ninf
  | fin a, ninf => if a = 0 then nan else if 0 < a then ninf else pinf
  | pinf, fin b => if b = 0 then nan else if 0 < b then pinf else ninf
  | ninf, fin b => if b = 0 then nan else if 0 < b then ninf else pinf
  | pinf, pinf => pinf
  | ninf, ninf => pinf
  | pinf, ninf => ninf
  | ninf, pinf => ninf

/-- The quotient of two floats; a zero divisor is `+0`. -/
def div : F32 → F32 → F32
  | nan, _ => nan
  | _, nan => nan
  | fin a, fin b =>
      if b = 0 then (if a = 0 then nan else if 0 < a then pinf else ninf)
      else round (a / b)
  | fin _, pinf => fin 0
  | fin _, ninf => fin 0
  | pinf, fin b => if 0 ≤ b then pinf else ninf
  | ninf, fin b => if 0 ≤ b then ninf else pinf
  | pinf, pinf => nan
  | pinf, ninf => nan
  | ninf, pinf => nan
  | ninf, ninf => nan

/-- Truncation of a rational toward zero. -/
def trunc (q : ℚ) : Int := if 0 ≤ q then ⌊q⌋ else ⌈q⌉

/-- The conversion `(int)f`: truncation toward zero, and `-2^31` where the value does
not fit an `int`. -/
def toInt : F32 → Int
  | fin q => if -2 ^ 31 ≤ trunc q ∧ trunc q < 2 ^ 31 then trunc q else -2 ^ 31
  | _ => -2 ^ 31

/-- The conversion of a float to `unsigned`: truncation toward zero, reduced modulo
`2^32`, and `0` where the value does not fit 64 bits. -/
def toUnsigned : F32 → Nat
  | fin q => if -2 ^ 63 ≤ trunc q ∧ trunc q < 2 ^ 63 then (trunc q % 2 ^ 32).toNat else 0
  | _ => 0

end F32

/-! ## int and cv::Rect -/

/-- Reduction of an integer to the 32 bit two's complement range. -/
def wrap32 (z : Int) : Int := (z + 2 ^ 31) % 2 ^ 32 - 2 ^ 31

/-- The type `cv::Rect`: top-left corner, width and height. -/
structure Rect where
  x : Int
  y : Int
  width : Int
  height : Int
  deriving DecidableEq

namespace Rect

/-- The default rectangle `Rect()`. -/
def zero : Rect := ⟨0, 0, 0, 0⟩

/-- The member `Rect::area`. -/
def area (r : Rect) : Int := wrap32 (r.width * r.height)

/-- The member `Rect::empty`. -/
def empty (r : Rect) : Bool := decide (r.width ≤ 0) || decide (r.height ≤ 0)

/-- The intersection `a & b`. -/
def inter (a b : Rect) : Rect :=
  let x1 := max a.x b.x
  let y1 := max a.y b.y
  let w := wrap32 (min (wrap32 (a.x + a.width)) (wrap32 (b.x + b.width)) - x1)
  let h := wrap32 (min (wrap32 (a.y + a.height)) (wrap32 (b.y + b.height)) - y1)
  if w ≤ 0 ∨ h ≤ 0 then zero else ⟨x1, y1, w, h⟩

end Rect

/-- The function `iou` of detector.cpp. -/
def iou (a b : Rect) : F32 :=
  F32.div (F32.ofInt (a.inter b).area)
    (F32.ofInt (wrap32 (wrap32 (a.area + b.area) - (a.inter b).area)))

/-! ## nms -/

/-- The element `probabilities[i]`. -/
def probAt (probabilities : List F32) (i : Nat) : F32 := probabilities.getD i F32.nan

/-- The element `boxes[i]`. -/
def boxAt (boxes : List Rect) (i : Nat) : Rect := boxes.getD i Rect.zero

/-- The body of the first `for` loop of a round of `nms`: the pair
`(indMaxProb, maxProb)` after the element `i` of the working set is visited. -/
def nmsSelectStep (probabilities : List F32) (acc : Nat × F32) (i : Nat) : Nat × F32 :=
  if F32.gt (probAt probabilities i) acc.2 then (i, probAt probabilities i) else acc

/-- The first `for` loop of a round of `nms`: the scan of the working set in ascending
order, from `indMaxProb = 0` and `maxProb = 0.0f`. -/
def nmsSelect (probabilities : List F32) (remaining : List Nat) : Nat × F32 :=
  remaining.foldl (nmsSelectStep probabilities) (0, F32.fin 0)

/-- The working set after one round of `nms`: `indMaxProb` is erased, then every
element whose box has `iou` with the box `indMaxProb` above the threshold. -/
def nmsSuppress (boxes : List Rect) (threshold : F32) (indMaxProb : Nat)
    (remaining : List Nat) : List Nat :=
  (remaining.erase indMaxProb).filter
    (fun i => !F32.gt (iou (boxAt boxes indMaxProb) (boxAt boxes i)) threshold)

/-- The `while` loop of `nms`, run for at most `fuel` rounds from the working set
`remaining` and the output `indices`. -/
def nmsLoop (boxes : List Rect) (probabilities : List F32) (threshold : F32) :
    Nat → List Nat → List Nat → Option (List Nat)
  | _, [], indices => some indices
  | 0, _ :: _, _ => none
  | fuel + 1, i :: rest, indices =>
      let indMaxProb := (nmsSelect probabilities (i :: rest)).1
      nmsLoop boxes probabilities threshold fuel
        (nmsSuppress boxes threshold indMaxProb (i :: rest)) (indices ++ [indMaxProb])

/-- The function `nms` of detector.cpp, called with an empty `indices`. -/
def nms (fuel : Nat) (boxes : List Rect) (probabilities : List F32) (threshold : F32) :
    Option (List Nat) :=
  nmsLoop boxes probabilities threshold fuel (List.range boxes.length) []

/-! ## Detector::detect -/

/-- The element `output[k]` of the output blob. -/
def outAt (output : List F32) (k : Nat) : F32 := output.getD k F32.nan

/-- The vectors `preboxes`, `preprobabilities`, `preclasses` (and then `boxes`,
`probabilities`, `classes`) of `Detector::detect`. -/
structure Candidates where
  boxes : List Rect
  probabilities : List F32
  classes : List Nat
  deriving DecidableEq

/-- The rectangle that `Detector::detect` builds from record `i`. -/
def decodeBox (output : List F32) (imageWidth imageHeight : Int) (i : Nat) : Rect :=
  let xmin := F32.toInt (F32.mul (outAt output (i * 7 + 3)) (F32.ofInt imageWidth))
  let xmax := F32.toInt (F32.mul (outAt output (i * 7 + 5)) (F32.ofInt imageWidth))
  let ymin := F32.toInt (F32.mul (outAt output (i * 7 + 4)) (F32.ofInt imageHeight))
  let ymax := F32.toInt (F32.mul (outAt output (i * 7 + 6)) (F32.ofInt imageHeight))
  let width := wrap32 (wrap32 (xmax - xmin) + 1)
  let height := wrap32 (wrap32 (ymax - ymin) + 1)
  ⟨xmin, ymin, width, height⟩

/-- The body of the decoding loop of `Detector::detect` for record `i`. -/
def decodeStep (output : List F32) (imageWidth imageHeight : Int) (probThreshold : F32)
    (pre : Candidates) (i : Nat) : Candidates :=
  if F32.lt (outAt output (i * 7 + 2)) probThreshold then pre
  else
    ⟨pre.boxes ++ [decodeBox output imageWidth imageHeight i],
     pre.probabilities ++ [outAt output (i * 7 + 2)],
     pre.classes ++ [F32.toUnsigned (outAt output (i * 7 + 1))]⟩

/-- The decoding loop of `Detector::detect` over the `n / 7` records of the blob. -/
def decode (output : List F32) (imageWidth imageHeight : Int) (probThreshold : F32) :
    Candidates :=
  (List.range (output.length / 7)).foldl
    (decodeStep output imageWidth imageHeight probThreshold) ⟨[], [], []⟩

/-- The part of `Detector::detect` after inference: decoding of the output blob,
`nms` (for at most `fuel` rounds) and the selection of the accepted candidates. -/
def detect (fuel : Nat) (output : List F32) (imageWidth imageHeight : Int)
    (nmsThreshold probThreshold : F32) : Option Candidates :=
  let pre := decode output imageWidth imageHeight probThreshold
  match nms fuel pre.boxes pre.probabilities nmsThreshold with
  | none => none
  | some indices =>
      some ⟨indices.map (boxAt pre.boxes), indices.map (probAt pre.probabilities),
        indices.map (fun i => pre.classes.getD i 0)⟩

/-! ## Vocabulary of the statements -/

/-- The score `output[i * 7 + 2]` of record `i`. -/
def recordScore (output : List F32) (i : Nat) : F32 := outAt output (i * 7 + 2)

/-- The class of record `i`, as `Detector::detect` stores it. -/
def recordClass (output : List F32) (i : Nat) : Nat := F32.toUnsigned (outAt output (i * 7 + 1))

/-- The test that keeps record `i`: its score is not below `probThreshold`. -/
def keptRecord (output : List F32) (probThreshold : F32) (i : Nat) : Bool :=
  !F32.lt (outAt output (i * 7 + 2)) probThreshold

/-- The records that the decoding loop keeps, in the order of the blob. -/
def keptRecords (output : List F32) (probThreshold : F32) : List Nat :=
  (List.range (output.length / 7)).filter (keptRecord output probThreshold)

/-- The place of a float other than `nan` in the extended rationals. -/
def F32.key : F32 → WithBot (WithTop ℚ)
  | F32.nan => ⊥
  | F32.ninf => ⊥
  | F32.pinf => ((⊤ : WithTop ℚ) : WithBot (WithTop ℚ))
  | F32.fin q => ((q : WithTop ℚ) : WithBot (WithTop ℚ))

/-- The order in which `nms` is meant to accept two candidates: the higher score first,
and of two equal scores the smaller index first. -/
def Precedes (probabilities : List F32) (a b : Nat) : Prop :=
  F32.gt (probAt probabilities a) (probAt probabilities b) = true ∨
    (probAt probabilities a = probAt probabilities b ∧ a < b)

/-- Invariant of the `while` loop of `nms`, between the working set and the output. -/
structure NmsInv (boxes : List Rect) (probs : List F32) (t : F32)
    (rem indices : List Nat) : Prop where
  sorted : rem.Pairwise (· < ·)
  rem_lt : ∀ i ∈ rem, i < boxes.length
  acc_lt : ∀ a ∈ indices, a < boxes.length
  nodup : indices.Nodup
  disj : ∀ a ∈ indices, a ∉ rem
  keep : ∀ a ∈ indices, ∀ i ∈ rem, F32.gt (iou (boxAt boxes a) (boxAt boxes i)) t = false
  pair : indices.Pairwise (fun a b => F32.gt (iou (boxAt boxes a) (boxAt boxes b)) t = false)
  ordRem : ∀ a ∈ indices, ∀ i ∈ rem, Precedes probs a i
  ord : indices.Pairwise (Precedes probs)

/-! ## Concrete inputs -/

/-- Three boxes in a row: the second overlaps the first, the third overlaps the first
and not the second. -/
def exBoxes : List Rect := [⟨5, 0, 10, 10⟩, ⟨0, 0, 10, 10⟩, ⟨10, 0, 10, 10⟩]

/-- Two boxes apart from one another. -/
def apartBoxes : List Rect := [⟨0, 0, 10, 10⟩, ⟨20, 0, 10, 10⟩]

/-- Two records of score `0` whose boxes, on a 64 x 64 image, are `apartBoxes`. -/
def zeroTensor : List F32 :=
  [F32.fin 0, F32.fin 1, F32.fin 0, F32.fin 0, F32.fin 0, F32.fin (9 / 64), F32.fin (9 / 64),
   F32.fin 0, F32.fin 1, F32.fin 0, F32.fin (20 / 64), F32.fin 0, F32.fin (29 / 64),
     F32.fin (9 / 64)]

/-- Four boxes: the second overlaps the first, the third is apart from all, the fourth
overlaps the first and not the second. -/
def slipBoxes : List Rect :=
  [⟨5, 0, 10, 10⟩, ⟨0, 0, 10, 10⟩, ⟨40, 40, 10, 10⟩, ⟨10, 0, 10, 10⟩]

/-- Four records with the scores 0.5, 0.75, 0.25 and 0 whose boxes, on a 64 x 64 image,
are `slipBoxes`. -/
def slipTensor : List F32 :=
  [F32.fin 0, F32.fin 1, F32.fin (1 / 2), F32.fin (5 / 64), F32.fin 0, F32.fin (14 / 64),
     F32.fin (9 / 64),
   F32.fin 0, F32.fin 1, F32.fin (3 / 4), F32.fin 0, F32.fin 0, F32.fin (9 / 64),
     F32.fin (9 / 64),
   F32.fin 0, F32.fin 1, F32.fin (1 / 4), F32.fin (40 / 64), F32.fin (40 / 64),
     F32.fin (49 / 64), F32.fin (49 / 64),
   F32.fin 0, F32.fin 1, F32.fin 0, F32.fin (10 / 64), F32.fin 0, F32.fin (19 / 64),
     F32.fin (9 / 64)]

/-! ## The order of the floats -/

namespace F32

theorem lt_iff_key {a b : F32} (ha : a ≠ nan) (hb : b ≠ nan) :
    lt a b = true ↔ key a < key b := by
  cases a <;> cases b <;> simp_all [lt, key, WithBot.bot_lt_coe, lt_top_iff_ne_top]

theorem le_iff_key {a b : F32} (ha : a ≠ nan) (hb : b ≠ nan) :
    le a b = true ↔ key a ≤ key b := by
  cases a <;> cases b <;> simp_all [le, key]

theorem key_inj {a b : F32} (ha : a ≠ nan) (hb : b ≠ nan) (h : key a = key b) : a = b := by
  cases a <;> cases b <;> simp_all [key]

theorem lt_ne_nan {a b : F32} (h : lt a b = true) : a ≠ nan ∧ b ≠ nan := by
  cases a <;> cases b <;> simp_all [lt]

theorem lt_self (a : F32) : lt a a = false := by
  cases a <;> simp [lt]

end F32

/-! ## The selection scan -/

theorem nmsSelect_fold (probs : List F32) :
    ∀ (l : List Nat) (acc : Nat × F32), acc.2 ≠ F32.nan →
      (∀ j ∈ l, probAt probs j ≠ F32.nan) → l.Pairwise (· < ·) →
      (l.foldl (nmsSelectStep probs) acc).2 ≠ F32.nan ∧
      F32.key acc.2 ≤ F32.key (l.foldl (nmsSelectStep probs) acc).2 ∧
      (∀ j ∈ l, F32.key (probAt probs j) ≤ F32.key (l.foldl (nmsSelectStep probs) acc).2) ∧
      (l.foldl (nmsSelectStep probs) acc = acc ∨
        ((l.foldl (nmsSelectStep probs) acc).1 ∈ l ∧
          (l.foldl (nmsSelectStep probs) acc).2
            = probAt probs (l.foldl (nmsSelectStep probs) acc).1 ∧
          F32.key acc.2 < F32.key (l.foldl (nmsSelectStep probs) acc).2 ∧
          ∀ j ∈ l, j < (l.foldl (nmsSelectStep probs) acc).1 →
            F32.key (probAt probs j) < F32.key (l.foldl (nmsSelectStep probs) acc).2)) := by
  intro l
  induction l with
  | nil => intro acc hacc _ _; simpa using hacc
  | cons i l ih =>
    intro acc hacc hnan hsorted
    have hi : probAt probs i ≠ F32.nan := hnan i (List.mem_cons_self _ _)
    have hl : ∀ j ∈ l, probAt probs j ≠ F32.nan := fun j hj => hnan j (List.mem_cons_of_mem _ hj)
    have hs : l.Pairwise (· < ·) := (List.pairwise_cons.mp hsorted).2
    have hgt : ∀ j ∈ l, i < j := (List.pairwise_cons.mp hsorted).1
    rw [List.foldl_cons]
    by_cases hc : F32.gt (probAt probs i) acc.2 = true
    · have hstep : nmsSelectStep probs acc i = (i, probAt probs i) := by
        simp [nmsSelectStep, hc]
      have hlt : F32.key acc.2 < F32.key (probAt probs i) := (F32.lt_iff_key hacc hi).mp hc
      rw [hstep]
      obtain ⟨h1, h2, h3, h4⟩ := ih (i, probAt probs i) hi hl hs
      refine ⟨h1, le_of_lt (lt_of_lt_of_le hlt h2), ?_, Or.inr ?_⟩
      · intro j hj
        rcases List.mem_cons.mp hj with rfl | hj
        · exact h2
        · exact h3 j hj
      · rcases h4 with h4 | ⟨m1, m2, m3, m4⟩
        · rw [h4]
          refine ⟨List.mem_cons_self _ _, rfl, hlt, ?_⟩
          intro j hj hji
          rcases List.mem_cons.mp hj with rfl | hj
          · exact absurd hji (lt_irrefl _)
          · exact absurd (hgt j hj) (not_lt.mpr (le_of_lt hji))
        · refine ⟨List.mem_cons_of_mem _ m1, m2, lt_trans hlt m3, ?_⟩
          intro j hj hjr
          rcases List.mem_cons.mp hj with rfl | hj
          · exact m3
          · exact m4 j hj hjr
    · have hstep : nmsSelectStep probs acc i = acc := by
        simp [nmsSelectStep, hc]
      have hle : F32.key (probAt probs i) ≤ F32.key acc.2 :=
        not_lt.mp (fun h => hc ((F32.lt_iff_key hacc hi).mpr h))
      rw [hstep]
      obtain ⟨h1, h2, h3, h4⟩ := ih acc hacc hl hs
      refine ⟨h1, h2, ?_, ?_⟩
      · intro j hj
        rcases List.mem_cons.mp hj with rfl | hj
        · exact le_trans hle h2
        · exact h3 j hj
      · rcases h4 with h4 | ⟨m1, m2, m3, m4⟩
        · exact Or.inl h4
        · refine Or.inr ⟨List.mem_cons_of_mem _ m1, m2, m3, ?_⟩
          intro j hj hjr
          rcases List.mem_cons.mp hj with rfl | hj
          · exact lt_of_le_of_lt hle m3
          · exact m4 j hj hjr

/-- With positive scores on a non-empty ascending working set, the scan selects a
member of the set that precedes every other member. -/
theorem nmsSelect_spec (probs : List F32) (rem : List Nat) (hne : rem ≠ [])
    (hpos : ∀ j ∈ rem, F32.gt (probAt probs j) (F32.fin 0) = true)
    (hsorted : rem.Pairwise (· < ·)) :
    (nmsSelect probs rem).1 ∈ rem ∧
      ∀ j ∈ rem, j ≠ (nmsSelect probs rem).1 → Precedes probs (nmsSelect probs rem).1 j := by
  have hnan : ∀ j ∈ rem, probAt probs j ≠ F32.nan := fun j hj => (F32.lt_ne_nan (hpos j hj)).2
  obtain ⟨h1, h2, h3, h4⟩ :=
    nmsSelect_fold probs rem (0, F32.fin 0) (by simp) hnan hsorted
  obtain ⟨i0, hi0⟩ := List.exists_mem_of_ne_nil rem hne
  have hlt0 : F32.key (F32.fin 0) < F32.key (rem.foldl (nmsSelectStep probs) (0, F32.fin 0)).2 :=
    lt_of_lt_of_le ((F32.lt_iff_key (by simp) (hnan i0 hi0)).mp (hpos i0 hi0)) (h3 i0 hi0)
  rcases h4 with h4 | ⟨m1, m2, _, m4⟩
  · rw [h4] at hlt0
    exact absurd hlt0 (lt_irrefl _)
  · refine ⟨m1, ?_⟩
    intro j hj hne'
    have hle := h3 j hj
    unfold nmsSelect
    rw [m2] at hle m4
    rcases lt_or_eq_of_le hle with hlt | heq
    · exact Or.inl ((F32.lt_iff_key (hnan j hj) (hnan _ m1)).mpr hlt)
    · refine Or.inr ⟨(F32.key_inj (hnan j hj) (hnan _ m1) heq).symm, ?_⟩
      rcases lt_trichotomy j (rem.foldl (nmsSelectStep probs) (0, F32.fin 0)).1 with h | h | h
      · exact absurd (m4 j hj h) (by rw [heq]; exact lt_irrefl _)
      · exact absurd h hne'
      · exact h

/-! ## The loop of nms on positive scores -/

theorem mem_nmsSuppress {boxes : List Rect} {t : F32} {ind : Nat} {rem : List Nat}
    (hnd : rem.Nodup) {i : Nat} :
    i ∈ nmsSuppress boxes t ind rem ↔
      (i ≠ ind ∧ i ∈ rem) ∧ F32.gt (iou (boxAt boxes ind) (boxAt boxes i)) t = false := by
  unfold nmsSuppress
  rw [List.mem_filter, hnd.mem_erase_iff]
  simp

theorem nmsSuppress_length_lt (boxes : List Rect) (t : F32) {ind : Nat} {rem : List Nat}
    (h : ind ∈ rem) : (nmsSuppress boxes t ind rem).length < rem.length := by
  unfold nmsSuppress
  have h1 := List.length_filter_le
    (fun i => !F32.gt (iou (boxAt boxes ind) (boxAt boxes i)) t) (rem.erase ind)
  have h2 := List.length_erase_of_mem h
  have h3 : 0 < rem.length := List.length_pos_of_mem h
  omega

theorem NmsInv.init (boxes : List Rect) (probs : List F32) (t : F32) :
    NmsInv boxes probs t (List.range boxes.length) [] where
  sorted := List.pairwise_lt_range _
  rem_lt := fun i hi => List.mem_range.mp hi
  acc_lt := by simp
  nodup := List.nodup_nil
  disj := by simp
  keep := by simp
  pair := List.Pairwise.nil
  ordRem := by simp
  ord := List.Pairwise.nil

theorem NmsInv.step {boxes : List Rect} {probs : List F32} {t : F32} {rem indices : List Nat}
    (hpos : ∀ i, i < boxes.length → F32.gt (probAt probs i) (F32.fin 0) = true)
    (inv : NmsInv boxes probs t rem indices) (hne : rem ≠ []) :
    (nmsSelect probs rem).1 ∈ rem ∧
      NmsInv boxes probs t (nmsSuppress boxes t (nmsSelect probs rem).1 rem)
        (indices ++ [(nmsSelect probs rem).1]) := by
  obtain ⟨hmem, hprec⟩ :=
    nmsSelect_spec probs rem hne (fun j hj => hpos j (inv.rem_lt j hj)) inv.sorted
  have hnd : rem.Nodup := inv.sorted.imp (fun h => ne_of_lt h)
  refine ⟨hmem, ?_⟩
  constructor
  · exact inv.sorted.sublist ((List.filter_sublist _).trans (List.erase_sublist _ _))
  · intro i hi
    exact inv.rem_lt i ((mem_nmsSuppress hnd).mp hi).1.2
  · intro a ha
    rcases List.mem_append.mp ha with ha | ha
    · exact inv.acc_lt a ha
    · rw [List.mem_singleton.mp ha]; exact inv.rem_lt _ hmem
  · rw [List.nodup_append]
    refine ⟨inv.nodup, List.nodup_singleton _, ?_⟩
    intro a ha hb
    rw [List.mem_singleton.mp hb] at ha
    exact inv.disj _ ha hmem
  · intro a ha hi
    have hi' := (mem_nmsSuppress hnd).mp hi
    rcases List.mem_append.mp ha with ha | ha
    · exact inv.disj a ha hi'.1.2
    · exact hi'.1.1 (List.mem_singleton.mp ha)
  · intro a ha i hi
    have hi' := (mem_nmsSuppress hnd).mp hi
    rcases List.mem_append.mp ha with ha | ha
    · exact inv.keep a ha i hi'.1.2
    · rw [List.mem_singleton.mp ha]; exact hi'.2
  · rw [List.pairwise_append]
    refine ⟨inv.pair, List.pairwise_singleton _ _, ?_⟩
    intro a ha b hb
    rw [List.mem_singleton.mp hb]
    exact inv.keep a ha _ hmem
  · intro a ha i hi
    have hi' := (mem_nmsSuppress hnd).mp hi
    rcases List.mem_append.mp ha with ha | ha
    · exact inv.ordRem a ha i hi'.1.2
    · rw [List.mem_singleton.mp ha]; exact hprec i hi'.1.2 hi'.1.1
  · rw [List.pairwise_append]
    refine ⟨inv.ord, List.pairwise_singleton _ _, ?_⟩
    intro a ha b hb
    rw [List.mem_singleton.mp hb]
    exact inv.ordRem a ha _ hmem

theorem nmsLoop_cons (boxes : List Rect) (probs : List F32) (t : F32) (fuel : Nat)
    (rem indices : List Nat) (hne : rem ≠ []) :
    nmsLoop boxes probs t (fuel + 1) rem indices =
      nmsLoop boxes probs t fuel (nmsSuppress boxes t (nmsSelect probs rem).1 rem)
        (indices ++ [(nmsSelect probs rem).1]) := by
  cases rem with
  | nil => exact absurd rfl hne
  | cons i rest => rfl

theorem nmsLoop_pos {boxes : List Rect} {probs : List F32} {t : F32}
    (hpos : ∀ i, i < boxes.length → F32.gt (probAt probs i) (F32.fin 0) = true) :
    ∀ (fuel : Nat) (rem indices : List Nat), NmsInv boxes probs t rem indices →
      rem.length ≤ fuel →
      ∃ out, nmsLoop boxes probs t fuel rem indices = some out ∧
        NmsInv boxes probs t [] out ∧ out.length ≤ indices.length + rem.length := by
  intro fuel
  induction fuel with
  | zero =>
    intro rem indices inv hlen
    have : rem = [] := List.length_eq_zero.mp (Nat.le_zero.mp hlen)
    subst this
    exact ⟨indices, rfl, inv, by simp⟩
  | succ fuel ih =>
    intro rem indices inv hlen
    by_cases hne : rem = []
    · subst hne
      exact ⟨indices, rfl, inv, by simp⟩
    · obtain ⟨hmem, inv'⟩ := inv.step hpos hne
      have hshrink := nmsSuppress_length_lt boxes t hmem
      obtain ⟨out, h1, h2, h3⟩ := ih _ _ inv' (by omega)
      refine ⟨out, ?_, h2, ?_⟩
      · rw [nmsLoop_cons _ _ _ _ _ _ hne]; exact h1
      · simp only [List.length_append, List.length_singleton] at h3
        omega

/-- More rounds do not change a result of the loop. -/
theorem nmsLoop_mono (boxes : List Rect) (probs : List F32) (t : F32) :
    ∀ (fuel k : Nat) (rem indices out : List Nat),
      nmsLoop boxes probs t fuel rem indices = some out →
      nmsLoop boxes probs t (fuel + k) rem indices = some out := by
  intro fuel
  induction fuel with
  | zero =>
    intro k rem indices out h
    cases rem with
    | nil => cases k <;> simpa [nmsLoop] using h
    | cons i rest => simp [nmsLoop] at h
  | succ fuel ih =>
    intro k rem indices out h
    cases rem with
    | nil => simpa [nmsLoop] using h
    | cons i rest =>
      rw [nmsLoop_cons _ _ _ _ _ _ (List.cons_ne_nil _ _)] at h
      rw [show fuel + 1 + k = (fuel + k) + 1 by omega,
        nmsLoop_cons _ _ _ _ _ _ (List.cons_ne_nil _ _)]
      exact ih k _ _ out h

/-- Two bounds under which the loop ends give the same output. -/
theorem nmsLoop_unique (boxes : List Rect) (probs : List F32) (t : F32)
    {f1 f2 : Nat} {rem indices out1 out2 : List Nat}
    (h1 : nmsLoop boxes probs t f1 rem indices = some out1)
    (h2 : nmsLoop boxes probs t f2 rem indices = some out2) : out1 = out2 := by
  have e1 := nmsLoop_mono boxes probs t f1 f2 rem indices out1 h1
  have e2 := nmsLoop_mono boxes probs t f2 f1 rem indices out2 h2
  rw [Nat.add_comm] at e2
  rw [e1] at e2
  exact Option.some.inj e2

theorem probAt_pos {boxes : List Rect} {probs : List F32}
    (hlen : probs.length = boxes.length)
    (hpos : ∀ p ∈ probs, F32.gt p (F32.fin 0) = true) :
    ∀ i, i < boxes.length → F32.gt (probAt probs i) (F32.fin 0) = true := by
  intro i hi
  have hi' : i < probs.length := by omega
  unfold probAt
  rw [List.getD_eq_getElem _ _ hi']
  exact hpos _ (List.getElem_mem hi')

/-- On positive scores `nms` ends within `boxes.size()` rounds, in a state that
satisfies the invariant of the loop. -/
theorem nms_pos {boxes : List Rect} {probs : List F32} (t : F32)
    (hlen : probs.length = boxes.length)
    (hpos : ∀ p ∈ probs, F32.gt p (F32.fin 0) = true) :
    ∃ out, nms boxes.length boxes probs t = some out ∧ NmsInv boxes probs t [] out ∧
      out.length ≤ boxes.length := by
  obtain ⟨out, h1, h2, h3⟩ := nmsLoop_pos (probAt_pos hlen hpos) boxes.length
    (List.range boxes.length) [] (NmsInv.init boxes probs t) (by simp)
  exact ⟨out, h1, h2, by simpa using h3⟩

theorem Rect.inter_comm (a b : Rect) : a.inter b = b.inter a := by
  unfold Rect.inter
  simp only [max_comm a.x b.x, max_comm a.y b.y,
    min_comm (wrap32 (a.x + a.width)) (wrap32 (b.x + b.width)),
    min_comm (wrap32 (a.y + a.height)) (wrap32 (b.y + b.height))]

theorem iou_comm (a b : Rect) : iou a b = iou b a := by
  unfold iou
  rw [Rect.inter_comm a b, Int.add_comm a.area b.area]

theorem F32.le_of_not_gt {a b : F32} (ha : a ≠ F32.nan) (hb : b ≠ F32.nan)
    (h : F32.gt a b = false) : F32.le a b = true := by
  rw [F32.le_iff_key ha hb]
  apply not_lt.mp
  intro hlt
  have := (F32.lt_iff_key hb ha).mpr hlt
  unfold F32.gt at h
  rw [h] at this
  exact Bool.false_ne_true this

/-! ## Progress and termination -/

/-- C10: when the `n` scores are all above `0`, every round of `nms` on an ascending
working set of indices below `n` selects a member of the working set and erases it, the
next working set is a strictly shorter part of it, the loop ends within `n` rounds
(and a larger bound on the rounds gives the same output), and the output holds only
indices below `n`, none of them twice.  Without the hypothesis the
selected index need not be in the working set: on the scores `[0, 0]` and the working
set `{1}` the scan answers `0`. -/
theorem nms_progress_of_pos (boxes : List Rect) (probs : List F32) (t : F32)
    (hlen : probs.length = boxes.length)
    (hpos : ∀ p ∈ probs, F32.gt p (F32.fin 0) = true) :
    (∀ rem : List Nat, rem ≠ [] → rem.Pairwise (· < ·) → (∀ i ∈ rem, i < boxes.length) →
      (nmsSelect probs rem).1 ∈ rem ∧
      (nmsSelect probs rem).1 ∉ nmsSuppress boxes t (nmsSelect probs rem).1 rem ∧
      (∀ i ∈ nmsSuppress boxes t (nmsSelect probs rem).1 rem, i ∈ rem) ∧
      (nmsSuppress boxes t (nmsSelect probs rem).1 rem).length < rem.length) ∧
    (∃ out, nms boxes.length boxes probs t = some out ∧ out.length ≤ boxes.length ∧
      (∀ i ∈ out, i < boxes.length) ∧ out.Nodup ∧
      ∀ fuel out', nms fuel boxes probs t = some out' → out' = out) ∧
    (nmsSelect [F32.fin 0, F32.fin 0] [1]).1 ∉ [1] := by
  refine ⟨?_, ?_, by decide!⟩
  · intro rem hne hsorted hlt
    have hnd : rem.Nodup := hsorted.imp (fun h => ne_of_lt h)
    obtain ⟨hmem, _⟩ := nmsSelect_spec probs rem hne
      (fun j hj => probAt_pos hlen hpos j (hlt j hj)) hsorted
    refine ⟨hmem, ?_, ?_, nmsSuppress_length_lt boxes t hmem⟩
    · intro h
      exact ((mem_nmsSuppress hnd).mp h).1.1 rfl
    · intro i hi
      exact ((mem_nmsSuppress hnd).mp hi).1.2
  · obtain ⟨out, h1, inv, h3⟩ := nms_pos t hlen hpos
    exact ⟨out, h1, h3, inv.acc_lt, inv.nodup,
      fun fuel out' h => nmsLoop_unique boxes probs t h h1⟩

/-- Instance of `nms_progress_of_pos` on three boxes with the scores 0.5, 0.75, 0.25. -/
theorem nms_progress_of_pos_witness :
    (∃ out, nms 3 exBoxes [F32.fin (1 / 2), F32.fin (3 / 4), F32.fin (1 / 4)]
        (F32.fin (1 / 4)) = some out ∧ out.length ≤ 3 ∧ (∀ i ∈ out, i < 3) ∧ out.Nodup ∧
      ∀ fuel out', nms fuel exBoxes [F32.fin (1 / 2), F32.fin (3 / 4), F32.fin (1 / 4)]
        (F32.fin (1 / 4)) = some out' → out' = out) :=
  (nms_progress_of_pos exBoxes [F32.fin (1 / 2), F32.fin (3 / 4), F32.fin (1 / 4)]
    (F32.fin (1 / 4)) (by decide) (by decide!)).2.1

/-! ## The suppression invariant -/

/-- C1, as the code has it: when the scores are all above `0`, `nms` ends and no two
boxes at different positions of its output have `iou(A, B) > nmsThreshold`; so
`iou(A, B) <= nmsThreshold` whenever neither `iou(A, B)` nor the threshold is `nan`. -/
theorem nms_suppression_of_pos (boxes : List Rect) (probs : List F32) (t : F32)
    (hlen : probs.length = boxes.length)
    (hpos : ∀ p ∈ probs, F32.gt p (F32.fin 0) = true) :
    ∃ out, nms boxes.length boxes probs t = some out ∧
      ∀ (i j : Nat) (hi : i < out.length) (hj : j < out.length), i ≠ j →
        F32.gt (iou (boxAt boxes out[i]) (boxAt boxes out[j])) t = false ∧
        (iou (boxAt boxes out[i]) (boxAt boxes out[j]) ≠ F32.nan → t ≠ F32.nan →
          F32.le (iou (boxAt boxes out[i]) (boxAt boxes out[j])) t = true) := by
  obtain ⟨out, h1, inv, _⟩ := nms_pos t hlen hpos
  refine ⟨out, h1, ?_⟩
  have key : ∀ (i j : Nat) (hi : i < out.length) (hj : j < out.length), i ≠ j →
      F32.gt (iou (boxAt boxes out[i]) (boxAt boxes out[j])) t = false := by
    intro i j hi hj hne
    have hp := List.pairwise_iff_getElem.mp inv.pair
    rcases Nat.lt_or_gt_of_ne hne with h | h
    · exact hp i j hi hj h
    · rw [iou_comm]; exact hp j i hj hi h
  intro i j hi hj hne
  exact ⟨key i j hi hj hne, fun hn ht => F32.le_of_not_gt hn ht (key i j hi hj hne)⟩

/-- Instance of `nms_suppression_of_pos` on three boxes with the scores 0.5, 0.75, 0.25. -/
theorem nms_suppression_of_pos_witness :
    ∃ out, nms 3 exBoxes [F32.fin (1 / 2), F32.fin (3 / 4), F32.fin (1 / 4)]
        (F32.fin (1 / 4)) = some out ∧
      ∀ (i j : Nat) (hi : i < out.length) (hj : j < out.length), i ≠ j →
        F32.gt (iou (boxAt exBoxes out[i]) (boxAt exBoxes out[j])) (F32.fin (1 / 4)) = false ∧
        (iou (boxAt exBoxes out[i]) (boxAt exBoxes out[j]) ≠ F32.nan →
          F32.fin (1 / 4) ≠ F32.nan →
          F32.le (iou (boxAt exBoxes out[i]) (boxAt exBoxes out[j])) (F32.fin (1 / 4)) = true) :=
  nms_suppression_of_pos exBoxes [F32.fin (1 / 2), F32.fin (3 / 4), F32.fin (1 / 4)]
    (F32.fin (1 / 4)) (by decide) (by decide!)

/-- C1 fails as stated: two boxes of width `0` with the scores 0.75 and 0.5 are both
accepted at the threshold 0.5 and their `iou` is `0/0 = nan`, which is not `<= 0.5`; and
at the threshold `nan` two equal boxes are both accepted, with `iou` `1`. -/
theorem nms_suppression_counterexample :
    (nms 2 [⟨10, 10, 0, 5⟩, ⟨30, 30, 0, 5⟩] [F32.fin (3 / 4), F32.fin (1 / 2)]
        (F32.fin (1 / 2)) = some [0, 1] ∧
      iou ⟨10, 10, 0, 5⟩ ⟨30, 30, 0, 5⟩ = F32.nan ∧
      F32.le (iou ⟨10, 10, 0, 5⟩ ⟨30, 30, 0, 5⟩) (F32.fin (1 / 2)) = false) ∧
    (nms 2 [⟨0, 0, 10, 10⟩, ⟨0, 0, 10, 10⟩] [F32.fin (3 / 4), F32.fin (1 / 2)]
        F32.nan = some [0, 1] ∧
      iou ⟨0, 0, 10, 10⟩ ⟨0, 0, 10, 10⟩ = F32.fin 1 ∧
      F32.le (iou ⟨0, 0, 10, 10⟩ ⟨0, 0, 10, 10⟩) F32.nan = false) := by
  decide!

/-! ## Acceptance order, dominance and idempotence on positive scores -/

/-- The output of the loop extends the output it started from. -/
theorem nmsLoop_extends (boxes : List Rect) (probs : List F32) (t : F32) :
    ∀ (fuel : Nat) (rem indices out : List Nat),
      nmsLoop boxes probs t fuel rem indices = some out → indices <+: out := by
  intro fuel
  induction fuel with
  | zero =>
    intro rem indices out h
    cases rem with
    | nil =>
      simp only [nmsLoop, Option.some.injEq] at h
      rw [h]
    | cons i rest => simp [nmsLoop] at h
  | succ fuel ih =>
    intro rem indices out h
    cases rem with
    | nil =>
      simp only [nmsLoop, Option.some.injEq] at h
      rw [h]
    | cons i rest =>
      rw [nmsLoop_cons _ _ _ _ _ _ (List.cons_ne_nil _ _)] at h
      have hstep : indices <+: indices ++ [(nmsSelect probs (i :: rest)).1] := ⟨_, rfl⟩
      exact hstep.trans (ih _ _ out h)

/-- The index selected in the first round is in the output of the loop. -/
theorem nmsLoop_first_mem (boxes : List Rect) (probs : List F32) (t : F32)
    (fuel : Nat) (rem out : List Nat) (hne : rem ≠ [])
    (h : nmsLoop boxes probs t fuel rem [] = some out) : (nmsSelect probs rem).1 ∈ out := by
  cases fuel with
  | zero =>
    cases rem with
    | nil => exact absurd rfl hne
    | cons i rest => simp [nmsLoop] at h
  | succ fuel =>
    rw [nmsLoop_cons _ _ _ _ _ _ hne] at h
    exact (nmsLoop_extends _ _ _ _ _ _ _ h).subset (by simp)

/-- On positive scores the output of `nms` is ordered by `Precedes`: scores do not
increase along it, and of two equal scores the smaller index comes first. -/
theorem nms_order_of_pos (boxes : List Rect) (probs : List F32) (t : F32)
    (hlen : probs.length = boxes.length)
    (hpos : ∀ p ∈ probs, F32.gt p (F32.fin 0) = true) :
    ∃ out, nms boxes.length boxes probs t = some out ∧
      ∀ (i j : Nat) (hi : i < out.length) (hj : j < out.length), i < j →
        F32.ge (probAt probs out[i]) (probAt probs out[j]) = true ∧
        (probAt probs out[i] = probAt probs out[j] → out[i] < out[j]) := by
  obtain ⟨out, h1, inv, _⟩ := nms_pos t hlen hpos
  refine ⟨out, h1, ?_⟩
  intro i j hi hj hij
  have hp := List.pairwise_iff_getElem.mp inv.ord i j hi hj hij
  have hni : probAt probs out[i] ≠ F32.nan :=
    (F32.lt_ne_nan (probAt_pos hlen hpos _ (inv.acc_lt _ (List.getElem_mem hi)))).2
  have hnj : probAt probs out[j] ≠ F32.nan :=
    (F32.lt_ne_nan (probAt_pos hlen hpos _ (inv.acc_lt _ (List.getElem_mem hj)))).2
  constructor
  · unfold F32.ge
    rw [F32.le_iff_key hnj hni]
    rcases hp with hgt | ⟨heq, _⟩
    · exact le_of_lt ((F32.lt_iff_key hnj hni).mp hgt)
    · rw [heq]
  · intro heq
    rcases hp with hgt | ⟨_, hlt⟩
    · unfold F32.gt at hgt
      rw [heq, F32.lt_self] at hgt
      exact absurd hgt Bool.false_ne_true
    · exact hlt

/-- On positive scores the output of `nms` holds the candidate that precedes every
other one: the earliest of the candidates with the highest score. -/
theorem nms_dominance_of_pos (boxes : List Rect) (probs : List F32) (t : F32)
    (hne : boxes ≠ []) (hlen : probs.length = boxes.length)
    (hpos : ∀ p ∈ probs, F32.gt p (F32.fin 0) = true) :
    ∃ out, nms boxes.length boxes probs t = some out ∧
      ∃ m ∈ out, ∀ j, j < boxes.length → j ≠ m → Precedes probs m j := by
  obtain ⟨out, h1, _, _⟩ := nms_pos t hlen hpos
  refine ⟨out, h1, ?_⟩
  have hr : List.range boxes.length ≠ [] := by
    intro h
    have hl := congrArg List.length h
    rw [List.length_range, List.length_nil] at hl
    exact hne (List.length_eq_zero.mp hl)
  obtain ⟨_, hprec⟩ := nmsSelect_spec probs (List.range boxes.length) hr
    (fun j hj => probAt_pos hlen hpos j (List.mem_range.mp hj)) (List.pairwise_lt_range _)
  have hpre := nmsLoop_first_mem boxes probs t _ _ _ hr h1
  refine ⟨(nmsSelect probs (List.range boxes.length)).1, ?_, ?_⟩
  · exact hpre
  · intro j hj hjm
    exact hprec j (List.mem_range.mpr hj) hjm

theorem F32.lt_asymm {a b : F32} (h : F32.lt a b = true) : F32.lt b a = false := by
  obtain ⟨ha, hb⟩ := F32.lt_ne_nan h
  have h1 := (F32.lt_iff_key ha hb).mp h
  cases hba : F32.lt b a with
  | false => rfl
  | true => exact absurd ((F32.lt_iff_key hb ha).mp hba) (not_lt.mpr (le_of_lt h1))

theorem nmsSelect_fold_noop (probs : List F32) :
    ∀ (l : List Nat) (acc : Nat × F32),
      (∀ j ∈ l, F32.gt (probAt probs j) acc.2 = false) →
      l.foldl (nmsSelectStep probs) acc = acc := by
  intro l
  induction l with
  | nil => intro acc _; rfl
  | cons i l ih =>
    intro acc h
    have hi := h i (List.mem_cons_self _ _)
    rw [List.foldl_cons]
    have hstep : nmsSelectStep probs acc i = acc := by simp [nmsSelectStep, hi]
    rw [hstep]
    exact ih acc (fun j hj => h j (List.mem_cons_of_mem _ hj))

/-- On candidates that are already in acceptance order and do not suppress one another
the loop accepts every index in turn. -/
theorem nmsLoop_accepts_all (boxes : List Rect) (probs : List F32) (t : F32) (m : Nat)
    (hpos : ∀ a, a < m → F32.gt (probAt probs a) (F32.fin 0) = true)
    (hord : ∀ a b, a < b → b < m → F32.gt (probAt probs b) (probAt probs a) = false)
    (hkeep : ∀ a b, a < b → b < m → F32.gt (iou (boxAt boxes a) (boxAt boxes b)) t = false) :
    ∀ (d k : Nat) (acc : List Nat), k + d = m →
      nmsLoop boxes probs t d (List.range' k d) acc = some (acc ++ List.range' k d) := by
  intro d
  induction d with
  | zero => intro k acc _; simp [nmsLoop]
  | succ d ih =>
    intro k acc hk
    have hrange : List.range' k (d + 1) = k :: List.range' (k + 1) d := List.range'_succ _ _ _
    have hmem : ∀ j ∈ List.range' (k + 1) d, k < j ∧ j < m := by
      intro j hj
      have := List.mem_range'_1.mp hj
      omega
    have hsel : (nmsSelect probs (k :: List.range' (k + 1) d)).1 = k := by
      unfold nmsSelect
      rw [List.foldl_cons]
      have hstep : nmsSelectStep probs (0, F32.fin 0) k = (k, probAt probs k) := by
        simp [nmsSelectStep, hpos k (by omega)]
      rw [hstep, nmsSelect_fold_noop probs _ _
        (fun j hj => hord k j (hmem j hj).1 (hmem j hj).2)]
    have hsup : nmsSuppress boxes t k (k :: List.range' (k + 1) d) = List.range' (k + 1) d := by
      unfold nmsSuppress
      rw [List.erase_cons_head, List.filter_eq_self]
      intro j hj
      simp [hkeep k j (hmem j hj).1 (hmem j hj).2]
    rw [hrange, nmsLoop_cons _ _ _ _ _ _ (List.cons_ne_nil _ _), hsel, hsup,
      ih (k + 1) (acc ++ [k]) (by omega)]
    simp

/-- On positive scores a second run of `nms`, on the boxes and scores that the first
run accepted, accepts every one of them in the same order. -/
theorem nms_idempotent_of_pos (boxes : List Rect) (probs : List F32) (t : F32)
    (hlen : probs.length = boxes.length)
    (hpos : ∀ p ∈ probs, F32.gt p (F32.fin 0) = true) :
    ∃ out, nms boxes.length boxes probs t = some out ∧
      nms out.length (out.map (boxAt boxes)) (out.map (probAt probs)) t
        = some (List.range out.length) := by
  obtain ⟨out, h1, inv, _⟩ := nms_pos t hlen hpos
  refine ⟨out, h1, ?_⟩
  have hP : ∀ a (ha : a < out.length), probAt (out.map (probAt probs)) a = probAt probs out[a] := by
    intro a ha
    unfold probAt
    rw [List.getD_eq_getElem _ _ (by simpa using ha)]
    simp [probAt]
  have hB : ∀ a (ha : a < out.length), boxAt (out.map (boxAt boxes)) a = boxAt boxes out[a] := by
    intro a ha
    unfold boxAt
    rw [List.getD_eq_getElem _ _ (by simpa using ha)]
    simp [boxAt]
  have h := nmsLoop_accepts_all (out.map (boxAt boxes)) (out.map (probAt probs)) t out.length
    (by
      intro a ha
      rw [hP a ha]
      exact probAt_pos hlen hpos _ (inv.acc_lt _ (List.getElem_mem ha)))
    (by
      intro a b hab hb
      rw [hP a (by omega), hP b hb]
      rcases List.pairwise_iff_getElem.mp inv.ord a b (by omega) hb hab with hgt | ⟨heq, _⟩
      · exact F32.lt_asymm hgt
      · unfold F32.gt; rw [heq]; exact F32.lt_self _)
    (by
      intro a b hab hb
      rw [hB a (by omega), hB b hb]
      exact List.pairwise_iff_getElem.mp inv.pair a b (by omega) hb hab)
    out.length 0 [] (by omega)
  unfold nms
  rw [List.length_map, List.range_eq_range', h]
  simp

/-! ## Scores that are not above 0 -/

theorem nmsLoop_stuck :
    ∀ (fuel : Nat) (indices : List Nat),
      nmsLoop apartBoxes [F32.fin 0, F32.fin 0] (F32.fin (1 / 2)) fuel [1] indices = none := by
  intro fuel
  induction fuel with
  | zero => intro indices; rfl
  | succ fuel ih =>
    intro indices
    rw [nmsLoop_cons _ _ _ _ _ _ (List.cons_ne_nil _ _)]
    have hsel : (nmsSelect [F32.fin 0, F32.fin 0] [1]).1 = 0 := by decide!
    have hsup : nmsSuppress apartBoxes (F32.fin (1 / 2)) 0 [1] = [1] := by decide!
    rw [hsel, hsup]
    exact ih _

theorem nms_stuck (fuel : Nat) :
    nms fuel apartBoxes [F32.fin 0, F32.fin 0] (F32.fin (1 / 2)) = none := by
  cases fuel with
  | zero => rfl
  | succ fuel =>
    have hr : List.range apartBoxes.length = [0, 1] := by decide
    have hsel : (nmsSelect [F32.fin 0, F32.fin 0] [0, 1]).1 = 0 := by decide!
    have hsup : nmsSuppress apartBoxes (F32.fin (1 / 2)) 0 [0, 1] = [1] := by decide!
    unfold nms
    rw [hr, nmsLoop_cons _ _ _ _ _ _ (List.cons_ne_nil _ _), hsel, hsup]
    exact nmsLoop_stuck fuel _

/-- C3 at its failing inputs.  On two boxes apart from one another with the scores
`[0, 0]` the loop of `nms` never ends, whatever the number of rounds it is given: the
scan selects index `0` in every round and the working set stays `{1}`; so does
`Detector::detect` on the two records `zeroTensor` at `probThreshold = 0`.  On two equal
boxes with the scores `[-1, -0.5]` `nms` returns `[0]`: the candidate with the highest
score, index `1`, is not in the output. -/
theorem nms_dominance_failing_input :
    (∀ fuel, nms fuel apartBoxes [F32.fin 0, F32.fin 0] (F32.fin (1 / 2)) = none) ∧
    (∀ fuel, detect fuel zeroTensor 64 64 (F32.fin (1 / 2)) (F32.fin 0) = none) ∧
    nms 2 [⟨0, 0, 10, 10⟩, ⟨0, 0, 10, 10⟩] [F32.fin (-1), F32.fin (-1 / 2)] (F32.fin (1 / 2))
      = some [0] := by
  refine ⟨nms_stuck, ?_, by decide!⟩
  intro fuel
  have hd : decode zeroTensor 64 64 (F32.fin 0)
      = ⟨apartBoxes, [F32.fin 0, F32.fin 0], [1, 1]⟩ := by decide!
  unfold detect
  rw [hd]
  simp only [nms_stuck fuel]

/-- C7 at its failing input: on `slipBoxes` with the scores `[0.5, 0.75, 0.25, 0]` and
the threshold `0.25`, `nms` returns `[1, 2, 0]`.  Index `0` was suppressed by index `1`
in the first round and is appended in the third round, when no score of the working set
`{3}` is above `0`; its score `0.5` comes after the score `0.25` of index `2`.
`Detector::detect` returns the scores `[0.75, 0.25, 0.5]` on the four records
`slipTensor` at `probThreshold = 0`. -/
theorem nms_order_failing_input :
    nms 4 slipBoxes [F32.fin (1 / 2), F32.fin (3 / 4), F32.fin (1 / 4), F32.fin 0]
      (F32.fin (1 / 4)) = some [1, 2, 0] ∧
    F32.ge (F32.fin (1 / 4)) (F32.fin (1 / 2)) = false ∧
    detect 4 slipTensor 64 64 (F32.fin (1 / 4)) (F32.fin 0)
      = some ⟨[⟨0, 0, 10, 10⟩, ⟨40, 40, 10, 10⟩, ⟨5, 0, 10, 10⟩],
          [F32.fin (3 / 4), F32.fin (1 / 4), F32.fin (1 / 2)], [1, 1, 1]⟩ := by
  decide!

/-- C4 at its failing input: on `exBoxes` with the scores `[0.5, 0.75, 0]` and the
threshold `0.25`, `nms` returns `[1, 0]` (index `0`, suppressed by index `1`, is appended
in the second round because the score of the working set `{2}` is not above `0`); a
second run on the two accepted boxes and scores returns `[0]`, not `[0, 1]`: the second
accepted box overlaps the first one above the threshold and is removed. -/
theorem nms_idempotence_failing_input :
    nms 3 exBoxes [F32.fin (1 / 2), F32.fin (3 / 4), F32.fin 0] (F32.fin (1 / 4))
      = some [1, 0] ∧
    nms 2 ([1, 0].map (boxAt exBoxes))
      ([1, 0].map (probAt [F32.fin (1 / 2), F32.fin (3 / 4), F32.fin 0])) (F32.fin (1 / 4))
      = some [0] ∧
    F32.gt (iou (boxAt exBoxes 1) (boxAt exBoxes 0)) (F32.fin (1 / 4)) = true := by
  decide!

/-! ## Two boxes that do not overlap -/

theorem Rect.inter_eq_zero_of_empty {a b : Rect} (h : (a.inter b).empty = true) :
    a.inter b = Rect.zero := by
  unfold Rect.inter at h ⊢
  simp only [] at h ⊢
  split
  · rfl
  · rename_i hc
    rw [if_neg hc] at h
    simp only [Rect.empty, Bool.or_eq_true, decide_eq_true_eq] at h
    exact absurd h hc

theorem F32.div_zero_left (y : F32) :
    F32.div (F32.fin 0) y = F32.nan ∨ F32.div (F32.fin 0) y = F32.fin 0 := by
  cases y with
  | nan => left; rfl
  | ninf => right; rfl
  | pinf => right; rfl
  | fin b =>
    by_cases hb : b = 0
    · left; simp [F32.div, hb]
    · right; simp [F32.div, hb, F32.round]

theorem iou_of_empty_inter {a b : Rect} (h : (a.inter b).empty = true) :
    iou a b = F32.nan ∨ iou a b = F32.fin 0 := by
  have h0 : F32.ofInt (Rect.zero).area = F32.fin 0 := by decide!
  unfold iou
  rw [Rect.inter_eq_zero_of_empty h, h0]
  exact F32.div_zero_left _

theorem iou_not_gt_of_empty_inter {a b : Rect} {t : F32} (h : (a.inter b).empty = true)
    (ht : F32.lt t (F32.fin 0) = false) : F32.gt (iou a b) t = false := by
  rcases iou_of_empty_inter h with h1 | h1
  · rw [h1]; cases t <;> rfl
  · rw [h1]; exact ht

/-- C8, as the code has it: two candidates with the same score above `0` whose
rectangles have an empty intersection are both accepted by `nms`, in the order of their
indices, at every threshold that is not below `0`. -/
theorem nms_disjoint_equal_scores (a b : Rect) (s t : F32) (fuel : Nat)
    (hinter : (a.inter b).empty = true)
    (hs : F32.gt s (F32.fin 0) = true)
    (ht : F32.lt t (F32.fin 0) = false) :
    nms (fuel + 2) [a, b] [s, s] t = some [0, 1] := by
  have hgt := iou_not_gt_of_empty_inter hinter ht
  have hs' : F32.lt (F32.fin 0) s = true := hs
  have hss : F32.gt s s = false := F32.lt_self s
  have hsel0 : (nmsSelect [s, s] [0, 1]).1 = 0 := by
    simp [nmsSelect, nmsSelectStep, probAt, hs, hss]
  have hsup0 : nmsSuppress [a, b] t 0 [0, 1] = [1] := by
    simp [nmsSuppress, boxAt, hgt]
  have hsel1 : (nmsSelect [s, s] [1]).1 = 1 := by
    simp [nmsSelect, nmsSelectStep, probAt, hs]
  have hsup1 : nmsSuppress [a, b] t 1 [1] = [] := by
    simp [nmsSuppress]
  have hr : List.range [a, b].length = [0, 1] := rfl
  unfold nms
  rw [hr, nmsLoop_cons _ _ _ _ _ _ (List.cons_ne_nil _ _), hsel0, hsup0,
    nmsLoop_cons _ _ _ _ _ _ (List.cons_ne_nil _ _), hsel1, hsup1]
  cases fuel <;> rfl

/-- Instance of `nms_disjoint_equal_scores`: two boxes apart from one another with the
score 0.5, at the threshold 0. -/
theorem nms_disjoint_equal_scores_witness :
    nms 2 [⟨0, 0, 10, 10⟩, ⟨20, 0, 10, 10⟩] [F32.fin (1 / 2), F32.fin (1 / 2)] (F32.fin 0)
      = some [0, 1] :=
  nms_disjoint_equal_scores ⟨0, 0, 10, 10⟩ ⟨20, 0, 10, 10⟩ (F32.fin (1 / 2)) (F32.fin 0) 0
    (by decide!) (by decide!) (by decide!)

/-- C8 fails as stated: at the threshold `-0.5` the `iou` `0` of two boxes apart from
one another is above the threshold, and the second of two candidates with the score 0.5
is suppressed. -/
theorem nms_disjoint_counterexample :
    ((⟨0, 0, 10, 10⟩ : Rect).inter ⟨20, 0, 10, 10⟩).empty = true ∧
    iou ⟨0, 0, 10, 10⟩ ⟨20, 0, 10, 10⟩ = F32.fin 0 ∧
    nms 2 [⟨0, 0, 10, 10⟩, ⟨20, 0, 10, 10⟩] [F32.fin (1 / 2), F32.fin (1 / 2)]
      (F32.fin (-1 / 2)) = some [0] := by
  decide!

/-! ## The decoding loop -/

theorem decode_foldl (output : List F32) (W H : Int) (pt : F32) :
    ∀ (l : List Nat) (pre : Candidates),
      l.foldl (decodeStep output W H pt) pre =
        ⟨pre.boxes ++ (l.filter (keptRecord output pt)).map (decodeBox output W H),
         pre.probabilities ++ (l.filter (keptRecord output pt)).map (recordScore output),
         pre.classes ++ (l.filter (keptRecord output pt)).map (recordClass output)⟩ := by
  intro l
  induction l with
  | nil => intro pre; simp
  | cons i l ih =>
    intro pre
    rw [List.foldl_cons, ih]
    by_cases hc : F32.lt (outAt output (i * 7 + 2)) pt = true
    · simp [decodeStep, keptRecord, recordScore, hc]
    · simp [decodeStep, keptRecord, recordScore, recordClass, hc]

/-- The vectors filled by the decoding loop: the records whose score is not below
`probThreshold`, in the order of the blob. -/
theorem decode_eq (output : List F32) (W H : Int) (pt : F32) :
    decode output W H pt =
      ⟨(keptRecords output pt).map (decodeBox output W H),
       (keptRecords output pt).map (recordScore output),
       (keptRecords output pt).map (recordClass output)⟩ := by
  unfold decode keptRecords
  rw [decode_foldl]
  simp

theorem nmsSelect_fold_fst (probs : List F32) :
    ∀ (l : List Nat) (acc : Nat × F32),
      (l.foldl (nmsSelectStep probs) acc).1 = acc.1 ∨
        (l.foldl (nmsSelectStep probs) acc).1 ∈ l := by
  intro l
  induction l with
  | nil => intro acc; exact Or.inl rfl
  | cons i l ih =>
    intro acc
    rw [List.foldl_cons]
    rcases ih (nmsSelectStep probs acc i) with h | h
    · by_cases hc : F32.gt (probAt probs i) acc.2 = true
      · right
        rw [h]
        simp [nmsSelectStep, hc]
      · left
        rw [h]
        simp [nmsSelectStep, hc]
    · exact Or.inr (List.mem_cons_of_mem _ h)

/-- Whatever the scores, the output of the loop holds only indices below the number of
boxes. -/
theorem nmsLoop_lt (boxes : List Rect) (probs : List F32) (t : F32) (n : Nat) :
    ∀ (fuel : Nat) (rem indices out : List Nat),
      (∀ i ∈ rem, i < n) → (∀ a ∈ indices, a < n) →
      nmsLoop boxes probs t fuel rem indices = some out → ∀ a ∈ out, a < n := by
  intro fuel
  induction fuel with
  | zero =>
    intro rem indices out _ hacc h
    cases rem with
    | nil =>
      simp only [nmsLoop, Option.some.injEq] at h
      rw [← h]; exact hacc
    | cons i rest => simp [nmsLoop] at h
  | succ fuel ih =>
    intro rem indices out hrem hacc h
    cases rem with
    | nil =>
      simp only [nmsLoop, Option.some.injEq] at h
      rw [← h]; exact hacc
    | cons i rest =>
      rw [nmsLoop_cons _ _ _ _ _ _ (List.cons_ne_nil _ _)] at h
      have hsel : (nmsSelect probs (i :: rest)).1 < n := by
        rcases nmsSelect_fold_fst probs (i :: rest) (0, F32.fin 0) with h0 | h0
        · have hi := hrem i (List.mem_cons_self _ _)
          unfold nmsSelect
          rw [h0]
          exact Nat.lt_of_le_of_lt (Nat.zero_le _) hi
        · exact hrem _ h0
      refine ih _ _ out ?_ ?_ h
      · intro j hj
        unfold nmsSuppress at hj
        exact hrem j (List.mem_of_mem_erase (List.mem_filter.mp hj).1)
      · intro a ha
        rcases List.mem_append.mp ha with ha | ha
        · exact hacc a ha
        · rw [List.mem_singleton.mp ha]; exact hsel

theorem getD_map_of_lt {α β : Type} (f : α → β) (l : List α) (d : β) (e : α) {a : Nat}
    (ha : a < l.length) : (l.map f).getD a d = f (l.getD a e) := by
  rw [List.getD_eq_getElem _ _ (by simpa using ha), List.getD_eq_getElem _ _ ha]
  simp

/-! ## Threshold filtering -/

/-- C2, as the code has it: whenever `Detector::detect` returns, its three vectors are
the decodings of a list `idx` of records of the blob, position by position, and the score
of every record of `idx` is not below `probThreshold`: no record with
`score < probThreshold` is in the output, and the score is `>= probThreshold` whenever
neither of the two is `nan`. -/
theorem detect_threshold_filtering (fuel : Nat) (output : List F32) (W H : Int)
    (nt pt : F32) (res : Candidates) (h : detect fuel output W H nt pt = some res) :
    ∃ idx : List Nat,
      (∀ i ∈ idx, i < output.length / 7 ∧ F32.lt (recordScore output i) pt = false ∧
        (recordScore output i ≠ F32.nan → pt ≠ F32.nan →
          F32.ge (recordScore output i) pt = true)) ∧
      res.boxes = idx.map (decodeBox output W H) ∧
      res.probabilities = idx.map (recordScore output) ∧
      res.classes = idx.map (recordClass output) := by
  unfold detect at h
  rw [decode_eq] at h
  simp only [] at h
  cases hn : nms fuel ((keptRecords output pt).map (decodeBox output W H))
      ((keptRecords output pt).map (recordScore output)) nt with
  | none => rw [hn] at h; exact absurd h (by simp)
  | some indices =>
    rw [hn] at h
    simp only [Option.some.injEq] at h
    have hlt : ∀ a ∈ indices, a < (keptRecords output pt).length := by
      have := nmsLoop_lt _ _ _ (keptRecords output pt).length fuel _ [] indices
        (by intro i hi; simpa using List.mem_range.mp hi) (by simp) hn
      exact this
    refine ⟨indices.map (fun a => (keptRecords output pt).getD a 0), ?_, ?_, ?_, ?_⟩
    · intro i hi
      obtain ⟨a, ha, rfl⟩ := List.mem_map.mp hi
      have ha' := hlt a ha
      rw [List.getD_eq_getElem _ _ ha']
      have hmem : (keptRecords output pt)[a] ∈ keptRecords output pt := List.getElem_mem ha'
      unfold keptRecords at hmem
      obtain ⟨h1, h2⟩ := List.mem_filter.mp hmem
      have h3 : F32.lt (recordScore output (List.filter (keptRecord output pt)
          (List.range (output.length / 7)))[a]) pt = false := by
        simpa [keptRecord, recordScore] using h2
      exact ⟨List.mem_range.mp h1, h3, fun hs hp => F32.le_of_not_gt hp hs h3⟩
    · rw [← h, List.map_map]
      exact List.map_congr_left (fun a ha => getD_map_of_lt _ _ _ 0 (hlt a ha))
    · rw [← h, List.map_map]
      exact List.map_congr_left (fun a ha => getD_map_of_lt _ _ _ 0 (hlt a ha))
    · rw [← h, List.map_map]
      exact List.map_congr_left (fun a ha => getD_map_of_lt _ _ _ 0 (hlt a ha))

/-- Instance of `detect_threshold_filtering`: the four records `slipTensor`, at the
thresholds 0.25 and 0.5, of which `detect` returns the first two. -/
theorem detect_threshold_filtering_witness :
    detect 2 slipTensor 64 64 (F32.fin (1 / 4)) (F32.fin (1 / 2)) =
        some ⟨[⟨0, 0, 10, 10⟩], [F32.fin (3 / 4)], [1]⟩ ∧
    ∃ idx : List Nat,
      (∀ i ∈ idx, i < slipTensor.length / 7 ∧
        F32.lt (recordScore slipTensor i) (F32.fin (1 / 2)) = false ∧
        (recordScore slipTensor i ≠ F32.nan → F32.fin (1 / 2) ≠ F32.nan →
          F32.ge (recordScore slipTensor i) (F32.fin (1 / 2)) = true)) ∧
      [(⟨0, 0, 10, 10⟩ : Rect)] = idx.map (decodeBox slipTensor 64 64) ∧
      [F32.fin (3 / 4)] = idx.map (recordScore slipTensor) ∧
      [1] = idx.map (recordClass slipTensor) :=
  ⟨by decide!, detect_threshold_filtering 2 slipTensor 64 64 (F32.fin (1 / 4)) (F32.fin (1 / 2))
    ⟨[⟨0, 0, 10, 10⟩], [F32.fin (3 / 4)], [1]⟩ (by decide!)⟩

/-- C2 fails as stated: a record with the score `nan` is returned at
`probThreshold = 0.5`, and a record with the score 0.75 is returned at
`probThreshold = nan`; neither score is `>= probThreshold`. -/
theorem detect_threshold_counterexample :
    (detect 1 [F32.fin 0, F32.fin 1, F32.nan, F32.fin 0, F32.fin 0, F32.fin (9 / 64),
        F32.fin (9 / 64)] 64 64 (F32.fin (1 / 4)) (F32.fin (1 / 2))
      = some ⟨[⟨0, 0, 10, 10⟩], [F32.nan], [1]⟩ ∧
      F32.ge F32.nan (F32.fin (1 / 2)) = false) ∧
    (detect 1 [F32.fin 0, F32.fin 1, F32.fin (3 / 4), F32.fin 0, F32.fin 0, F32.fin (9 / 64),
        F32.fin (9 / 64)] 64 64 (F32.fin (1 / 4)) F32.nan
      = some ⟨[⟨0, 0, 10, 10⟩], [F32.fin (3 / 4)], [1]⟩ ∧
      F32.ge (F32.fin (3 / 4)) F32.nan = false) := by
  decide!

/-! ## A blob whose length is not a multiple of 7 -/

theorem outAt_take (output : List F32) {m k : Nat} (hk : k < m) :
    outAt (output.take m) k = outAt output k := by
  simp [outAt, List.getElem?_take, hk]

theorem decode_take (output : List F32) (W H : Int) (pt : F32) :
    decode (output.take (7 * (output.length / 7))) W H pt = decode output W H pt := by
  have hlen : (output.take (7 * (output.length / 7))).length / 7 = output.length / 7 := by
    rw [List.length_take]
    omega
  have hkept : keptRecords (output.take (7 * (output.length / 7))) pt = keptRecords output pt := by
    unfold keptRecords
    rw [hlen]
    apply List.filter_congr
    intro i hi
    have hi' := List.mem_range.mp hi
    unfold keptRecord
    rw [outAt_take output (by omega)]
  have hmem : ∀ i ∈ keptRecords output pt, i < output.length / 7 := by
    intro i hi
    unfold keptRecords at hi
    exact List.mem_range.mp (List.mem_filter.mp hi).1
  rw [decode_eq, decode_eq, hkept]
  congr 1
  · apply List.map_congr_left
    intro i hi
    have hi' := hmem i hi
    unfold decodeBox
    rw [outAt_take output (by omega), outAt_take output (by omega),
      outAt_take output (by omega), outAt_take output (by omega)]
  · apply List.map_congr_left
    intro i hi
    have hi' := hmem i hi
    unfold recordScore
    rw [outAt_take output (by omega)]
  · apply List.map_congr_left
    intro i hi
    have hi' := hmem i hi
    unfold recordClass
    rw [outAt_take output (by omega)]

/-- C6, as the code has it: `Detector::detect` has no error path; on a blob of any
length it decodes the `length / 7` complete records and never reads the
`length mod 7` floats that follow them, so that its result is the result on the blob cut
to `7 * (length / 7)` floats. -/
theorem detect_ignores_trailing_floats (fuel : Nat) (output : List F32) (W H : Int)
    (nt pt : F32) :
    detect fuel output W H nt pt =
      detect fuel (output.take (7 * (output.length / 7))) W H nt pt := by
  unfold detect
  rw [decode_take]

/-- C6 fails as stated: on a blob of 8 floats, one record followed by one more float,
`Detector::detect` returns the box of the record. -/
theorem detect_malformed_length_counterexample :
    [F32.fin 0, F32.fin 1, F32.fin (3 / 4), F32.fin 0, F32.fin 0, F32.fin (9 / 64),
        F32.fin (9 / 64), F32.fin 5].length % 7 ≠ 0 ∧
    detect 1 [F32.fin 0, F32.fin 1, F32.fin (3 / 4), F32.fin 0, F32.fin 0, F32.fin (9 / 64),
        F32.fin (9 / 64), F32.fin 5] 64 64 (F32.fin (1 / 4)) (F32.fin (1 / 2))
      = some ⟨[⟨0, 0, 10, 10⟩], [F32.fin (3 / 4)], [1]⟩ := by
  decide!

/-! ## Decoding of one record -/

theorem F32.not_lt_of_ge {a b : F32} (h : F32.ge a b = true) : F32.lt a b = false := by
  cases a <;> cases b <;> simp_all [F32.ge, F32.le, F32.lt]

theorem wrap32_of_fits {z : Int} (h1 : -2 ^ 31 ≤ z) (h2 : z < 2 ^ 31) : wrap32 z = z := by
  unfold wrap32
  omega

theorem F32.trunc_bound {q : ℚ} (h1 : -2 ^ 30 < q) (h2 : q < 2 ^ 30) :
    -2 ^ 30 < F32.trunc q ∧ F32.trunc q < 2 ^ 30 := by
  unfold F32.trunc
  split
  · rename_i h0
    constructor
    · have : (0 : Int) ≤ ⌊q⌋ := Int.floor_nonneg.mpr h0
      omega
    · exact Int.floor_lt.mpr (by exact_mod_cast h2)
  · rename_i h0
    constructor
    · exact Int.lt_ceil.mpr (by exact_mod_cast h1)
    · have : ⌈q⌉ ≤ 0 := Int.ceil_le.mpr (by exact_mod_cast le_of_lt (not_le.mp h0))
      omega

theorem F32.toInt_of_fits {q : ℚ} (h1 : -2 ^ 30 < q) (h2 : q < 2 ^ 30) :
    F32.toInt (F32.fin q) = F32.trunc q := by
  obtain ⟨b1, b2⟩ := F32.trunc_bound h1 h2
  simp only [F32.toInt]
  rw [if_pos ⟨by omega, by omega⟩]

theorem nms_single (fuel : Nat) (b : Rect) (p t : F32) :
    nms (fuel + 1) [b] [p] t = some [0] := by
  have hsel : (nmsSelect [p] [0]).1 = 0 := by
    simp only [nmsSelect, List.foldl_cons, List.foldl_nil, nmsSelectStep]
    split <;> rfl
  have hsup : nmsSuppress [b] t 0 [0] = [] := by simp [nmsSuppress]
  have hr : List.range [b].length = [0] := rfl
  unfold nms
  rw [hr, nmsLoop_cons _ _ _ _ _ _ (List.cons_ne_nil _ _), hsel, hsup]
  cases fuel <;> rfl

theorem detect_one (fuel : Nat) (batch cls score xmin ymin xmax ymax : F32) (W H : Int)
    (nt pt : F32) (hlt : F32.lt score pt = false) :
    detect (fuel + 1) [batch, cls, score, xmin, ymin, xmax, ymax] W H nt pt =
      some ⟨[decodeBox [batch, cls, score, xmin, ymin, xmax, ymax] W H 0], [score],
        [F32.toUnsigned cls]⟩ := by
  have hk : keptRecords [batch, cls, score, xmin, ymin, xmax, ymax] pt = [0] := by
    have hr : List.range ([batch, cls, score, xmin, ymin, xmax, ymax].length / 7) = [0] := by
      simp [List.range_succ]
    unfold keptRecords
    rw [hr]
    simp [keptRecord, outAt, hlt]
  unfold detect
  rw [decode_eq, hk]
  simp [nms_single, recordScore, recordClass, outAt, boxAt, probAt]

/-- C5: a blob of one record `[batch, classId, score, xmin, ymin, xmax, ymax]` with
`score >= probThreshold` is decoded to exactly one box, with the score and the class of
the record.  The box is `(x, y, xmax' - x + 1, ymax' - y + 1)`, where `x`, `y`, `xmax'`,
`ymax'` are the float products `xmin * W`, `ymin * H`, `xmax * W`, `ymax * H` truncated
toward zero, whenever the four products are finite and between `-2^30` and `2^30` (where
the conversions to `int` and the differences are defined); a class that is a natural
number below `2^32` is returned as it is.  For the record
`[0, 1, 0.9, 0.1, 0.1, 0.5, 0.5]`, image 100 x 100 and `probThreshold = 0.5` the result
is the box `(10, 10, 41, 41)`, score 0.9, class 1. -/
theorem detect_single_record (fuel : Nat) (batch cls score xmin ymin xmax ymax : F32)
    (W H : Int) (nt pt : F32) (hs : F32.ge score pt = true) :
    detect (fuel + 1) [batch, cls, score, xmin, ymin, xmax, ymax] W H nt pt =
      some ⟨[decodeBox [batch, cls, score, xmin, ymin, xmax, ymax] W H 0], [score],
        [F32.toUnsigned cls]⟩ ∧
    (∀ qx qy qX qY : ℚ,
      F32.mul xmin (F32.ofInt W) = F32.fin qx → F32.mul ymin (F32.ofInt H) = F32.fin qy →
      F32.mul xmax (F32.ofInt W) = F32.fin qX → F32.mul ymax (F32.ofInt H) = F32.fin qY →
      (-2 ^ 30 < qx ∧ qx < 2 ^ 30) → (-2 ^ 30 < qy ∧ qy < 2 ^ 30) →
      (-2 ^ 30 < qX ∧ qX < 2 ^ 30) → (-2 ^ 30 < qY ∧ qY < 2 ^ 30) →
      decodeBox [batch, cls, score, xmin, ymin, xmax, ymax] W H 0 =
        ⟨F32.trunc qx, F32.trunc qy, F32.trunc qX - F32.trunc qx + 1,
          F32.trunc qY - F32.trunc qy + 1⟩) ∧
    (∀ c : Nat, c < 2 ^ 32 → cls = F32.fin (c : ℚ) → F32.toUnsigned cls = c) ∧
    detect (fuel + 1) [F32.fin 0, F32.fin 1, F32.round (9 / 10), F32.round (1 / 10),
        F32.round (1 / 10), F32.round (1 / 2), F32.round (1 / 2)] 100 100 nt (F32.fin (1 / 2))
      = some ⟨[⟨10, 10, 41, 41⟩], [F32.round (9 / 10)], [1]⟩ := by
  refine ⟨detect_one fuel _ _ _ _ _ _ _ _ _ _ _ (F32.not_lt_of_ge hs), ?_, ?_, ?_⟩
  · intro qx qy qX qY hx hy hX hY bx hby bX bY
    have tx := F32.trunc_bound bx.1 bx.2
    have ty := F32.trunc_bound hby.1 hby.2
    have tX := F32.trunc_bound bX.1 bX.2
    have tY := F32.trunc_bound bY.1 bY.2
    simp only [decodeBox, outAt, List.getD_cons_succ, List.getD_cons_zero, Nat.zero_mul,
      Nat.zero_add, hx, hy, hX, hY,
      F32.toInt_of_fits bx.1 bx.2, F32.toInt_of_fits hby.1 hby.2,
      F32.toInt_of_fits bX.1 bX.2, F32.toInt_of_fits bY.1 bY.2]
    rw [wrap32_of_fits (z := F32.trunc qX - F32.trunc qx) (by omega) (by omega),
      wrap32_of_fits (z := F32.trunc qY - F32.trunc qy) (by omega) (by omega),
      wrap32_of_fits (z := F32.trunc qX - F32.trunc qx + 1) (by omega) (by omega),
      wrap32_of_fits (z := F32.trunc qY - F32.trunc qy + 1) (by omega) (by omega)]
  · intro c hc hcls
    have ht : F32.trunc (c : ℚ) = (c : Int) := by
      unfold F32.trunc
      rw [if_pos (by exact_mod_cast Nat.zero_le c)]
      exact Int.floor_natCast c
    rw [hcls]
    simp only [F32.toUnsigned]
    rw [ht, if_pos ⟨by omega, by omega⟩]
    omega
  · rw [detect_one fuel _ _ _ _ _ _ _ _ _ _ _ (by decide!)]
    have hb : decodeBox [F32.fin 0, F32.fin 1, F32.round (9 / 10), F32.round (1 / 10),
        F32.round (1 / 10), F32.round (1 / 2), F32.round (1 / 2)] 100 100 0
        = ⟨10, 10, 41, 41⟩ := by decide!
    have hc : F32.toUnsigned (F32.fin 1) = 1 := by decide!
    rw [hb, hc]

/-- Instance of `detect_single_record`: the record `[0, 1, 0.9, 0.1, 0.1, 0.5, 0.5]`,
image 100 x 100, thresholds 0.5. -/
theorem detect_single_record_witness :
    F32.ge (F32.round (9 / 10)) (F32.fin (1 / 2)) = true ∧
    detect 1 [F32.fin 0, F32.fin 1, F32.round (9 / 10), F32.round (1 / 10),
        F32.round (1 / 10), F32.round (1 / 2), F32.round (1 / 2)] 100 100 (F32.fin (1 / 2))
        (F32.fin (1 / 2))
      = some ⟨[⟨10, 10, 41, 41⟩], [F32.round (9 / 10)], [1]⟩ :=
  ⟨by decide!, (detect_single_record 0 (F32.fin 0) (F32.fin 1) (F32.round (9 / 10))
    (F32.round (1 / 10)) (F32.round (1 / 10)) (F32.round (1 / 2)) (F32.round (1 / 2)) 100 100
    (F32.fin (1 / 2)) (F32.fin (1 / 2)) (by decide!)).2.2.2⟩

/-! ## The suppression invariant on the output of Detector::detect -/

/-- When the scores that pass the threshold are all above `0`, `Detector::detect` returns
and no two boxes at different positions of its output have `iou` above `nmsThreshold`. -/
theorem detect_suppression_of_pos (output : List F32) (W H : Int) (nt pt : F32)
    (hpos : ∀ p ∈ (decode output W H pt).probabilities, F32.gt p (F32.fin 0) = true) :
    ∃ res, detect (decode output W H pt).boxes.length output W H nt pt = some res ∧
      ∀ (i j : Nat) (hi : i < res.boxes.length) (hj : j < res.boxes.length), i ≠ j →
        F32.gt (iou res.boxes[i] res.boxes[j]) nt = false := by
  have hlen : (decode output W H pt).probabilities.length
      = (decode output W H pt).boxes.length := by
    rw [decode_eq]; simp
  obtain ⟨out, h1, inv, _⟩ := nms_pos nt hlen hpos
  refine ⟨⟨out.map (boxAt (decode output W H pt).boxes),
    out.map (probAt (decode output W H pt).probabilities),
    out.map (fun i => (decode output W H pt).classes.getD i 0)⟩, ?_, ?_⟩
  · unfold detect
    simp only [h1]
  · intro i j hi hj hne
    have hi' : i < out.length := by simpa using hi
    have hj' : j < out.length := by simpa using hj
    have hp := List.pairwise_iff_getElem.mp inv.pair
    simp only [List.getElem_map]
    rcases Nat.lt_or_gt_of_ne hne with h | h
    · exact hp i j hi' hj' h
    · rw [iou_comm]; exact hp j i hj' hi' h

end Detection
